import Mathlib

/-!
Shallow embedding of `src/paginator.py` (Lyte-e/paginator).

The repository is a reaction-driven message paginator for a chat bot.  We
model the pure state logic of the three classes:

* `_PaginatorBase.pagination` — the five-button cursor transition function
  (`pagination`), over an ordered sequence of categories, each a list of
  pages.  Python's `self.pages` is an insertion-ordered dict; for cursor
  claims only the ordered list of page lists matters.
* `_PaginatorBase.stop` — modelled as a pure function over a small state
  record, returning the platform calls it performs and whether an
  exception escapes (`NotFound`/`Forbidden` are swallowed).
* `TextPaginator.cut_text` — the greedy text splitter, including Python
  string semantics: `str.strip` (the full `str.isspace` set), `str.split` with a
  nonempty separator (an empty separator raises `ValueError`), `sep.join`.
  Unbounded recursion is modelled with explicit fuel; running out of fuel
  is Python's `RecursionError`.
* `FieldPaginator.split_fields` / `add_category` — the field-group splitter
  (which recurses on the *full* list) and the registration that passes the
  bare title where a `(title, footer, ordinal)` key is required.

Strings are modelled as `List Char`; Python dicts as insertion-ordered
association lists.  All definitions are executable so that concrete
witnesses evaluate by `decide`.
-/

namespace Paginator

/-- Python exception kinds surfaced by the modelled code paths. -/
inductive PyErr
  | indexError
  | keyError
  | attributeError
  | valueError
  | recursionError
deriving DecidableEq

instance exceptDecEq {ε α : Type} [DecidableEq ε] [DecidableEq α] :
    DecidableEq (Except ε α) := fun a b =>
  match a, b with
  | .error x, .error y =>
    if h : x = y then .isTrue (congrArg Except.error h)
    else .isFalse fun hc => h (Except.error.inj hc)
  | .error _, .ok _ => .isFalse fun hc => Except.noConfusion hc
  | .ok _, .error _ => .isFalse fun hc => Except.noConfusion hc
  | .ok x, .ok y =>
    if h : x = y then .isTrue (congrArg Except.ok h)
    else .isFalse fun hc => h (Except.ok.inj hc)

/-- The five configured reaction symbols, in slot order
`top, previous, stop, next, end` (Python attribute `self.emojis`). -/
structure Emojis (ε : Type) where
  e0 : ε
  e1 : ε
  e2 : ε
  e3 : ε
  e4 : ε
deriving DecidableEq

/-- The five configured symbols are pairwise distinct. -/
def Emojis.distinct {ε : Type} (em : Emojis ε) : Prop :=
  em.e0 ≠ em.e1 ∧ em.e0 ≠ em.e2 ∧ em.e0 ≠ em.e3 ∧ em.e0 ≠ em.e4 ∧
  em.e1 ≠ em.e2 ∧ em.e1 ≠ em.e3 ∧ em.e1 ≠ em.e4 ∧
  em.e2 ≠ em.e3 ∧ em.e2 ≠ em.e4 ∧ em.e3 ≠ em.e4

instance {ε : Type} [DecidableEq ε] (em : Emojis ε) : Decidable em.distinct := by
  unfold Emojis.distinct; infer_instance

/-- `_PaginatorBase.STANDART_EMOJIS`. -/
def STANDART_EMOJIS : Emojis String := ⟨"⏪", "◀", "⏹", "▶", "⏩"⟩

/-- Cursor state of `_PaginatorBase`: the ordered page lists of the
registered categories (values of the insertion-ordered dict `self.pages`),
the category cursor `self.category`, the page cursor `self.current`, and
the `self.is_active` flag. -/
structure PagState (α : Type) where
  pages : List (List α)
  category : Nat
  current : Nat
  is_active : Bool
deriving DecidableEq

/-- `_PaginatorBase.pagination(emoji)`.

Python first evaluates `self._get_page(self.category)` —
`tuple(self.pages.keys())[self.category]` — which raises `IndexError`
when the category cursor is out of range; then runs the if/elif chain.
The `stop` branch is modelled by clearing `is_active` (message cleanup is
modelled separately by `stop`). Note `category_count = self._count - 1`
and `page_count = len(...) - 1`; Python's `-1` on an empty paginator
compares like Lean's truncated `0 - 1 = 0` here because the cursors are
never negative and `x < -1` and `x < 0` are both unsatisfiable. -/
def pagination {α ε : Type} [DecidableEq ε] (em : Emojis ε) (s : PagState α)
    (emoji : ε) : Except PyErr (PagState α) :=
  let category_count := s.pages.length - 1
  match s.pages[s.category]? with
  | none => .error .indexError
  | some cat =>
    let page_count := cat.length - 1
    if emoji = em.e0 ∧ 0 < s.category then
      .ok { s with current := 0, category := s.category - 1 }
    else if emoji = em.e1 ∧ 0 < s.current then
      .ok { s with current := s.current - 1 }
    else if emoji = em.e2 then
      .ok { s with is_active := false }
    else if emoji = em.e3 ∧ s.current < page_count then
      .ok { s with current := s.current + 1 }
    else if emoji = em.e4 ∧ s.category < category_count then
      .ok { s with current := 0, category := s.category + 1 }
    else
      .ok s

/-- Iterated `pagination` over a sequence of pressed reaction symbols. -/
def run {α ε : Type} [DecidableEq ε] (em : Emojis ε) :
    PagState α → List ε → Except PyErr (PagState α)
  | s, [] => .ok s
  | s, e :: es =>
    match pagination em s e with
    | .error err => .error err
    | .ok s1 => run em s1 es

/-- The platform (discord) calls `stop` can perform on the bound message. -/
inductive PCall
  | deleteMsg
  | clearReactions
deriving DecidableEq

/-- Outcome of the platform call attempted by `stop`: the two exception
classes the code catches, or success. -/
inductive COutcome
  | success
  | notFound
  | forbidden
deriving DecidableEq

/-- The fields of `_PaginatorBase` that `stop` reads or writes:
`is_active`, whether `self.message` is bound, and `delete_message`. -/
structure StopState where
  is_active : Bool
  hasMessage : Bool
  delete_message : Bool
deriving DecidableEq

/-- `_PaginatorBase.stop()`: set `is_active = False`; if a message is
bound, delete it (when `delete_message`) or clear its reactions, catching
`errors.NotFound` and `errors.Forbidden`.  Returns the new state, the
list of platform calls performed, and the escaping exception if any. -/
def stop (s : StopState) (outcome : COutcome) :
    StopState × List PCall × Option PyErr :=
  let s1 := { s with is_active := false }
  if s.hasMessage then
    let call := if s.delete_message then PCall.deleteMsg else PCall.clearReactions
    match outcome with
    | .success => (s1, [call], none)
    | .notFound => (s1, [call], none)
    | .forbidden => (s1, [call], none)
  else
    (s1, [], none)

/-- Validity of the cursor: both indices in range, over a paginator whose
registered categories each own at least one page. -/
def CursorInv {α : Type} (s : PagState α) : Prop :=
  (∀ c ∈ s.pages, 0 < c.length) ∧
  s.category < s.pages.length ∧
  s.current < (s.pages.getD s.category []).length

/-- Python's `str.strip()` whitespace test: exactly the characters for
which Python's `str.isspace()` holds — the ASCII whitespace `\t`, `\n`,
`\v`, `\f`, `\r`, the separator controls `\x1c`-`\x1f`, the space `\x20`,
next-line `\x85`, no-break space `\xa0`, and the Unicode space code
points 1680, 2000-200a, 2028, 2029, 202f, 205f and 3000 (hex). -/
def isSpace (c : Char) : Bool :=
  (0x09 ≤ c.toNat ∧ c.toNat ≤ 0x0d) ∨ (0x1c ≤ c.toNat ∧ c.toNat ≤ 0x20) ∨
  c.toNat = 0x85 ∨ c.toNat = 0xa0 ∨ c.toNat = 0x1680 ∨
  (0x2000 ≤ c.toNat ∧ c.toNat ≤ 0x200a) ∨ c.toNat = 0x2028 ∨ c.toNat = 0x2029 ∨
  c.toNat = 0x202f ∨ c.toNat = 0x205f ∨ c.toNat = 0x3000

/-- Python's `str.strip()`: drop whitespace from both ends. -/
def strip (s : List Char) : List Char :=
  (((s.dropWhile isSpace).reverse).dropWhile isSpace).reverse

/-- Boolean list-prefix test (for locating separator occurrences). -/
def isPrefixB : List Char → List Char → Bool
  | [], _ => true
  | _ :: _, [] => false
  | a :: as, b :: bs => a = b && isPrefixB as bs

/-- Worker for Python's `str.split(sep)` with nonempty `sep`: scan left to
right; at each leftmost separator occurrence emit the accumulated token
and continue after the occurrence.  Structural on explicit fuel (one unit
per character) so that it evaluates by kernel reduction; `pySplit` always
supplies enough. -/
def splitGoF (sep : List Char) : Nat → List Char → List (List Char)
  | 0, s => [s]
  | fuel + 1, s =>
    match s with
    | [] => [[]]
    | c :: rest =>
      if sep ≠ [] ∧ isPrefixB sep (c :: rest) then
        [] :: splitGoF sep fuel ((c :: rest).drop sep.length)
      else
        match splitGoF sep fuel rest with
        | [] => [[c]]
        | t :: ts => (c :: t) :: ts

/-- Python's `str.split(sep)` for nonempty `sep` (the empty separator
raises `ValueError`, handled at the `cut_text` call site). -/
def pySplit (sep s : List Char) : List (List Char) :=
  splitGoF sep s.length s

/-- Separator shapes under which stripping a remainder cannot enlarge its
tokens: a single character, or no whitespace characters at all.  (The
default `"\n"` satisfies the first; a separator such as `" x"` satisfies
neither, and is exactly the shape under which `cut_text` can diverge even
with short tokens.) -/
def SepOK (sep : List Char) : Prop :=
  sep.length = 1 ∨ ∀ c ∈ sep, isSpace c = false

instance (sep : List Char) : Decidable (SepOK sep) := by
  unfold SepOK
  infer_instance

/-- Python's `sep.join(parts)`. -/
def joinSep (sep : List Char) : List (List Char) → List Char
  | [] => []
  | [t] => t
  | t :: u :: ts => t ++ sep ++ joinSep sep (u :: ts)

/-- Append one character to the last token of a token list. -/
def appendLast (c : Char) : List (List Char) → List (List Char)
  | [] => [[c]]
  | [t] => [t ++ [c]]
  | t :: u :: ts => t :: appendLast c (u :: ts)

/-- The downward scan of `cut_text`'s while loop:
`while len(sep.join(split_text[:count])) > self.max_size: count -= 1`. -/
def greedyCountGo (sep : List Char) (M : Nat) (ts : List (List Char)) : Nat → Nat
  | 0 => 0
  | k + 1 =>
    if M < (joinSep sep (ts.take (k + 1))).length then greedyCountGo sep M ts k
    else k + 1

/-- Final value of `count` in `cut_text` (started at `len(split_text)`). -/
def greedyCount (sep : List Char) (M : Nat) (ts : List (List Char)) : Nat :=
  greedyCountGo sep M ts ts.length

/-- `TextPaginator.cut_text(category, text)`, as the sequence of pages it
appends to `self.pages[category]` paired with the escaping exception, if
any.  Fuel models Python's recursion limit: exhaustion is
`RecursionError` (the docstring itself warns the recursion may blow up);
an empty separator is `str.split`'s `ValueError`. -/
def cut_text (sep : List Char) (M : Nat) : Nat → List Char → List (List Char) × Option PyErr
  | 0, _ => ([], some .recursionError)
  | fuel + 1, text =>
    if sep = [] then ([], some .valueError)
    else
      let ts := pySplit sep (strip text)
      let c := greedyCount sep M ts
      let chunk := joinSep sep (ts.take c)
      let leftovers := joinSep sep (ts.drop c)
      if M < leftovers.length then
        let r := cut_text sep M fuel leftovers
        (chunk :: r.1, r.2)
      else
        ([chunk, leftovers], none)

/-- Lookup in an insertion-ordered association list (Python dict read). -/
def dictGet {κ ν : Type} [DecidableEq κ] : List (κ × ν) → κ → Option ν
  | [], _ => none
  | (k, v) :: d, key => if k = key then some v else dictGet d key

/-- Write to an insertion-ordered association list (Python dict write):
update in place when the key exists, otherwise append. -/
def dictSet {κ ν : Type} [DecidableEq κ] : List (κ × ν) → κ → ν → List (κ × ν)
  | [], key, v => [(key, v)]
  | (k, w) :: d, key, v =>
    if k = key then (k, v) :: d else (k, w) :: dictSet d key v

/-- Keys of the `FieldPaginator` page dict.  Python uses one heterogeneous
dict: `add_category` registers 3-tuples `(title, footer, ordinal)` but
`split_fields` is invoked with the bare `title`; a Python `str` (or
`Embed.Empty`) never equals a 3-tuple, which the two constructors model. -/
inductive PKey
  | cat (title : Option String) (footer : Option String) (ordinal : Nat)
  | bare (title : Option String)
deriving DecidableEq

/-- Does a `PKey` have the `(title, footer, ordinal)` 3-tuple form that
the registration methods produce? -/
def PKey.isCat : PKey → Bool
  | .cat _ _ _ => true
  | .bare _ => false

/-- The `FieldPaginator` page dict: each value is the list of pages of a
category; each appended page is `[separated]`, a singleton list holding
one tuple of at most `max_count` fields. -/
abbrev FDict (α : Type) := List (PKey × List (List (List α)))

/-- `FieldPaginator.split_fields(category, fields)`: append
`[tuple(fields[:limit])]` to `self.pages[category]` (raising `KeyError`
when `category` is not a registered key), then — when
`len(fields[limit:]) > self.max_count` — recurse on the *unchanged* full
`fields` list.  Fuel models Python's recursion limit. -/
def split_fields {α : Type} (maxCount : Nat) :
    Nat → FDict α → PKey → List α → Except PyErr (FDict α)
  | 0, _, _, _ => .error .recursionError
  | fuel + 1, pages, category, fields =>
    let separated := fields.take maxCount
    match dictGet pages category with
    | none => .error .keyError
    | some cur =>
      let pages1 := dictSet pages category (cur ++ [[separated]])
      if maxCount < (fields.drop maxCount).length then
        split_fields maxCount fuel pages1 category fields
      else
        .ok pages1

/-- `FieldPaginator.add_category(*fields, title, footer)`: register the
empty page list under `(title, footer, self._count)`, then call
`split_fields(title, list(fields))` — with the bare title, not the key. -/
def add_category {α : Type} (maxCount fuel : Nat) (pages : FDict α)
    (title footer : Option String) (fields : List α) : Except PyErr (FDict α) :=
  let key := PKey.cat title footer pages.length
  let pages1 := dictSet pages key []
  split_fields maxCount fuel pages1 (PKey.bare title) fields

/-- Keys of the `TextPaginator` page dict: `(title, footer, ordinal)`.
`Embed.Empty` is modelled as `none`. -/
abbrev TKey := Option String × Option String × Nat

/-- The `TextPaginator` page dict. -/
abbrev TDict := List (TKey × List (List Char))

/-- A pre-built `discord.Embed` as `TextPaginator.add_embed` reads it:
title, description and footer text, each possibly `Embed.Empty`. -/
structure PyEmbed where
  title : Option String
  description : Option (List Char)
  footerText : Option String
deriving DecidableEq

/-- `TextPaginator.add_embed(embed)`: register the empty page list under
`(embed.title, footer, self._count)` and run `cut_text` on
`embed.description`.  There is no validation: an absent description makes
`cut_text`'s `text.strip()` raise `AttributeError` on the `Embed.Empty`
sentinel — after the key was already inserted; the state the exception
leaves behind is returned alongside the error. -/
def add_embed (sep : List Char) (M fuel : Nat) (pages : TDict) (e : PyEmbed) :
    TDict × Option PyErr :=
  let footer := e.footerText
  let key : TKey := (e.title, footer, pages.length)
  let pages1 := dictSet pages key []
  match e.description with
  | none => (pages1, some .attributeError)
  | some text =>
    let r := cut_text sep M fuel text
    (dictSet pages1 key r.1, r.2)

/-! ## Helper lemmas -/

theorem pagination_unfold {α ε : Type} [DecidableEq ε] (em : Emojis ε) (s : PagState α)
    (L : List α) (emoji : ε) (hg : s.pages[s.category]? = some L) :
    pagination em s emoji =
      (if emoji = em.e0 ∧ 0 < s.category then
        .ok { s with current := 0, category := s.category - 1 }
      else if emoji = em.e1 ∧ 0 < s.current then
        .ok { s with current := s.current - 1 }
      else if emoji = em.e2 then
        .ok { s with is_active := false }
      else if emoji = em.e3 ∧ s.current < L.length - 1 then
        .ok { s with current := s.current + 1 }
      else if emoji = em.e4 ∧ s.category < s.pages.length - 1 then
        .ok { s with current := 0, category := s.category + 1 }
      else .ok s) := by
  unfold pagination
  rw [hg]

theorem getD_eq_getElem {α : Type} (l : List (List α)) (i : Nat) (h : i < l.length) :
    l.getD i [] = l[i] := by
  rw [List.getD_eq_getElem?_getD, List.getElem?_eq_getElem h]
  rfl

theorem getD_mem_of_lt {α : Type} (l : List (List α)) (i : Nat) (h : i < l.length) :
    l.getD i [] ∈ l := by
  rw [getD_eq_getElem l i h]
  exact List.getElem_mem h

theorem pagination_preserves {α ε : Type} [DecidableEq ε] (em : Emojis ε)
    (s s' : PagState α) (e : ε) (hinv : CursorInv s)
    (hp : pagination em s e = .ok s') : CursorInv s' ∧ s'.pages = s.pages := by
  obtain ⟨hne, hcat, hcur⟩ := hinv
  have hg : s.pages[s.category]? = some s.pages[s.category] := List.getElem?_eq_getElem hcat
  rw [pagination_unfold em s _ e hg] at hp
  have hLen : 0 < s.pages[s.category].length :=
    hne _ (List.getElem_mem hcat)
  split_ifs at hp with h1 h2 h3 h4 h5 <;> (injection hp with hp; subst hp)
  · refine ⟨⟨hne, ?_, ?_⟩, rfl⟩
    · show s.category - 1 < s.pages.length
      omega
    · show 0 < (s.pages.getD (s.category - 1) []).length
      have hlt : s.category - 1 < s.pages.length := by omega
      rw [getD_eq_getElem _ _ hlt]
      exact hne _ (List.getElem_mem hlt)
  · refine ⟨⟨hne, hcat, ?_⟩, rfl⟩
    show s.current - 1 < (s.pages.getD s.category []).length
    rw [getD_eq_getElem _ _ hcat] at hcur ⊢
    omega
  · exact ⟨⟨hne, hcat, hcur⟩, rfl⟩
  · refine ⟨⟨hne, hcat, ?_⟩, rfl⟩
    show s.current + 1 < (s.pages.getD s.category []).length
    rw [getD_eq_getElem _ _ hcat] at hcur ⊢
    omega
  · refine ⟨⟨hne, ?_, ?_⟩, rfl⟩
    · show s.category + 1 < s.pages.length
      omega
    · show 0 < (s.pages.getD (s.category + 1) []).length
      have hlt : s.category + 1 < s.pages.length := by omega
      rw [getD_eq_getElem _ _ hlt]
      exact hne _ (List.getElem_mem hlt)
  · exact ⟨⟨hne, hcat, hcur⟩, rfl⟩

theorem run_preserves {α ε : Type} [DecidableEq ε] (em : Emojis ε) (es : List ε)
    (s s' : PagState α) (hinv : CursorInv s) (hr : run em s es = .ok s') :
    CursorInv s' := by
  induction es generalizing s with
  | nil =>
    unfold run at hr
    injection hr with hr
    subst hr
    exact hinv
  | cons e es ih =>
    unfold run at hr
    cases hpe : pagination em s e with
    | error err => rw [hpe] at hr; exact absurd hr (by simp)
    | ok s1 =>
      rw [hpe] at hr
      exact ih s1 (pagination_preserves em s s1 e hinv hpe).1 hr

theorem dictGet_set_self {κ ν : Type} [DecidableEq κ] (d : List (κ × ν)) (k : κ) (v : ν) :
    dictGet (dictSet d k v) k = some v := by
  induction d with
  | nil => simp [dictGet, dictSet]
  | cons p d ih =>
    obtain ⟨k1, v1⟩ := p
    by_cases h : k1 = k <;> simp [dictGet, dictSet, h, ih]

theorem dictGet_set_ne {κ ν : Type} [DecidableEq κ] (d : List (κ × ν)) (k k' : κ) (v : ν)
    (hk : k ≠ k') : dictGet (dictSet d k v) k' = dictGet d k' := by
  induction d with
  | nil => simp [dictGet, dictSet, hk]
  | cons p d ih =>
    obtain ⟨k1, v1⟩ := p
    by_cases h : k1 = k
    · subst h; simp [dictGet, dictSet, hk]
    · by_cases h' : k1 = k'
      · subst h'; simp [dictGet, dictSet, h]
      · simp [dictGet, dictSet, h, h', ih]

theorem dictGet_none_of_forall {κ ν : Type} [DecidableEq κ] (d : List (κ × ν)) (k : κ)
    (h : ∀ p ∈ d, p.1 ≠ k) : dictGet d k = none := by
  induction d with
  | nil => rfl
  | cons p d ih =>
    obtain ⟨k1, v1⟩ := p
    have h1 : k1 ≠ k := h (k1, v1) (by simp)
    simp only [dictGet, if_neg h1]
    exact ih fun q hq => h q (by simp [hq])

/-! ## Splitter lemmas -/

theorem isPrefixB_eq_append {l s : List Char} (h : isPrefixB l s = true) :
    s = l ++ s.drop l.length := by
  induction l generalizing s with
  | nil => simp
  | cons a as ih =>
    cases s with
    | nil => simp [isPrefixB] at h
    | cons b bs =>
      simp only [isPrefixB, Bool.and_eq_true, decide_eq_true_eq] at h
      obtain ⟨rfl, h2⟩ := h
      simpa [List.drop_succ_cons] using ih h2

theorem isPrefixB_length_le {l s : List Char} (h : isPrefixB l s = true) :
    l.length ≤ s.length := by
  have hl := congrArg List.length (isPrefixB_eq_append h)
  simp [List.length_append] at hl
  omega

theorem isPrefixB_eq {l s : List Char} (h : isPrefixB l s = true)
    (hlen : s.length ≤ l.length) : l = s := by
  have h2 := isPrefixB_eq_append h
  rw [List.drop_eq_nil_of_le hlen] at h2
  simpa using h2.symm

theorem isPrefixB_append_right {l s : List Char} (u : List Char)
    (h : isPrefixB l s = true) : isPrefixB l (s ++ u) = true := by
  induction l generalizing s with
  | nil => rfl
  | cons a as ih =>
    cases s with
    | nil => simp [isPrefixB] at h
    | cons b bs =>
      simp only [isPrefixB, List.cons_append, Bool.and_eq_true, decide_eq_true_eq] at h ⊢
      exact ⟨h.1, ih h.2⟩

theorem isPrefixB_of_append {l s u : List Char} (h : isPrefixB l (s ++ u) = true)
    (hlen : l.length ≤ s.length) : isPrefixB l s = true := by
  induction l generalizing s with
  | nil => rfl
  | cons a as ih =>
    cases s with
    | nil => simp at hlen
    | cons b bs =>
      simp only [isPrefixB, List.cons_append, Bool.and_eq_true, decide_eq_true_eq] at h ⊢
      exact ⟨h.1, ih h.2 (by simp at hlen; omega)⟩

theorem splitGoF_nil (sep : List Char) (f : Nat) : splitGoF sep f [] = [[]] := by
  cases f <;> rfl

theorem splitGoF_ne_nil (sep : List Char) (f : Nat) (s : List Char) :
    splitGoF sep f s ≠ [] := by
  match f, s with
  | 0, s => simp [splitGoF]
  | f + 1, [] => simp [splitGoF]
  | f + 1, c :: rest =>
    rw [splitGoF]
    split
    · simp
    · split <;> simp

theorem splitGoF_congr (sep : List Char) :
    ∀ f1 s, s.length ≤ f1 → ∀ f2, s.length ≤ f2 →
      splitGoF sep f1 s = splitGoF sep f2 s := by
  intro f1
  induction f1 with
  | zero =>
    intro s hs f2 _
    have hsnil : s = [] := List.length_eq_zero.mp (Nat.le_zero.mp hs)
    subst hsnil
    rw [splitGoF_nil, splitGoF_nil]
  | succ f ih =>
    intro s hs f2 h2
    cases s with
    | nil => rw [splitGoF_nil, splitGoF_nil]
    | cons c rest =>
      cases f2 with
      | zero => simp at h2
      | succ g =>
        have hrest : rest.length ≤ f := by simp at hs; omega
        have hrest2 : rest.length ≤ g := by simp at h2; omega
        simp only [splitGoF]
        by_cases hcond : sep ≠ [] ∧ isPrefixB sep (c :: rest) = true
        · rw [if_pos hcond, if_pos hcond]
          have hsep1 : 0 < sep.length := List.length_pos.mpr hcond.1
          have hd1 : ((c :: rest).drop sep.length).length ≤ f := by
            simp [List.length_drop]; omega
          have hd2 : ((c :: rest).drop sep.length).length ≤ g := by
            simp [List.length_drop]; omega
          rw [ih _ hd1 _ hd2]
        · rw [if_neg hcond, if_neg hcond, ih rest hrest g hrest2]

theorem joinSep_cons_of_ne_nil (sep x : List Char) {l : List (List Char)} (h : l ≠ []) :
    joinSep sep (x :: l) = x ++ sep ++ joinSep sep l := by
  cases l with
  | nil => exact absurd rfl h
  | cons y ys => rfl

theorem joinSep_splitGoF (sep : List Char) :
    ∀ f s, s.length ≤ f → joinSep sep (splitGoF sep f s) = s := by
  intro f
  induction f with
  | zero =>
    intro s hs
    have hsnil : s = [] := List.length_eq_zero.mp (Nat.le_zero.mp hs)
    subst hsnil
    rfl
  | succ f ih =>
    intro s hs
    cases s with
    | nil => rfl
    | cons c rest =>
      have hrest : rest.length ≤ f := by simp at hs; omega
      simp only [splitGoF]
      by_cases hcond : sep ≠ [] ∧ isPrefixB sep (c :: rest) = true
      · rw [if_pos hcond]
        have hsep1 : 0 < sep.length := List.length_pos.mpr hcond.1
        have hd : ((c :: rest).drop sep.length).length ≤ f := by
          simp [List.length_drop]; omega
        cases hx : splitGoF sep f ((c :: rest).drop sep.length) with
        | nil => exact absurd hx (splitGoF_ne_nil sep f _)
        | cons t ts =>
          rw [joinSep_cons_of_ne_nil sep [] (by simp), ← hx, ih _ hd]
          have happ := isPrefixB_eq_append hcond.2
          simpa using happ.symm
      · rw [if_neg hcond]
        cases hx : splitGoF sep f rest with
        | nil => exact absurd hx (splitGoF_ne_nil sep f rest)
        | cons t ts =>
          have ht := ih rest hrest
          rw [hx] at ht
          show joinSep sep ((c :: t) :: ts) = c :: rest
          cases ts with
          | nil =>
            simp only [joinSep] at ht ⊢
            rw [ht]
          | cons u us =>
            rw [joinSep_cons_of_ne_nil sep t (by simp)] at ht
            rw [joinSep_cons_of_ne_nil sep (c :: t) (by simp), ← ht]
            simp

theorem joinSep_pySplit (sep s : List Char) : joinSep sep (pySplit sep s) = s :=
  joinSep_splitGoF sep s.length s le_rfl

theorem pySplit_ne_nil (sep s : List Char) : pySplit sep s ≠ [] :=
  splitGoF_ne_nil sep s.length s

theorem joinSep_take_one (sep t : List Char) (ts : List (List Char)) :
    joinSep sep ((t :: ts).take 1) = t := by
  simp [joinSep]

theorem joinSep_take_drop (sep : List Char) :
    ∀ c : Nat, ∀ ts : List (List Char), 1 ≤ c → c < ts.length →
      joinSep sep ts = joinSep sep (ts.take c) ++ sep ++ joinSep sep (ts.drop c) := by
  intro c
  induction c with
  | zero => intro ts h1 _; omega
  | succ c ih =>
    intro ts h1 hlt
    cases ts with
    | nil => simp at hlt
    | cons t rest =>
      cases Nat.eq_zero_or_pos c with
      | inl hc0 =>
        subst hc0
        have hrne : rest ≠ [] := by
          cases rest
          · simp at hlt
          · simp
        rw [joinSep_cons_of_ne_nil sep t hrne]
        simp [joinSep]
      | inr hcpos =>
        have hlt2 : c < rest.length := by simp at hlt; omega
        have hrne : rest ≠ [] := by
          intro h; subst h; simp at hlt2
        have htne : rest.take c ≠ [] := by
          apply List.length_pos.mp
          rw [List.length_take]
          omega
        rw [joinSep_cons_of_ne_nil sep t hrne, ih rest hcpos hlt2,
          List.take_succ_cons, List.drop_succ_cons,
          joinSep_cons_of_ne_nil sep t htne]
        simp [List.append_assoc]

theorem greedyCountGo_le (sep : List Char) (M : Nat) (ts : List (List Char)) :
    ∀ k, greedyCountGo sep M ts k ≤ k := by
  intro k
  induction k with
  | zero => simp [greedyCountGo]
  | succ k ih =>
    rw [greedyCountGo]
    split
    · omega
    · omega

theorem greedyCountGo_join_le (sep : List Char) (M : Nat) (ts : List (List Char)) :
    ∀ k, (joinSep sep (ts.take (greedyCountGo sep M ts k))).length ≤ M := by
  intro k
  induction k with
  | zero => simp [greedyCountGo, joinSep]
  | succ k ih =>
    rw [greedyCountGo]
    split
    · exact ih
    · next h => omega

theorem greedyCountGo_pos (sep : List Char) (M : Nat) (ts : List (List Char))
    (h1 : (joinSep sep (ts.take 1)).length ≤ M) :
    ∀ k, 1 ≤ k → 1 ≤ greedyCountGo sep M ts k := by
  intro k
  induction k with
  | zero => omega
  | succ k ih =>
    intro _
    rw [greedyCountGo]
    split
    · next h =>
      cases k with
      | zero => simp only [Nat.zero_add] at h; omega
      | succ m => exact ih (by omega)
    · omega

theorem greedyCount_le (sep : List Char) (M : Nat) (ts : List (List Char)) :
    greedyCount sep M ts ≤ ts.length :=
  greedyCountGo_le sep M ts ts.length

theorem greedyCount_join_le (sep : List Char) (M : Nat) (ts : List (List Char)) :
    (joinSep sep (ts.take (greedyCount sep M ts))).length ≤ M :=
  greedyCountGo_join_le sep M ts ts.length

theorem splitGoF_decomp (sep : List Char) (hsep : sep ≠ []) :
    ∀ f s, s.length ≤ f → ∀ t rest, splitGoF sep f s = t :: rest → rest ≠ [] →
      ∃ r : List Char, s = t ++ sep ++ r ∧ pySplit sep r = rest ∧ r.length < s.length := by
  intro f
  induction f with
  | zero =>
    intro s hs t rest hsplit hne
    have hsnil : s = [] := List.length_eq_zero.mp (Nat.le_zero.mp hs)
    subst hsnil
    rw [splitGoF_nil] at hsplit
    injection hsplit with h1 h2
    exact absurd h2.symm hne
  | succ f ih =>
    intro s hs t rest hsplit hne
    cases s with
    | nil =>
      rw [splitGoF_nil] at hsplit
      injection hsplit with h1 h2
      exact absurd h2.symm hne
    | cons c cs =>
      have hcs : cs.length ≤ f := by simp at hs; omega
      rw [splitGoF] at hsplit
      by_cases hcond : sep ≠ [] ∧ isPrefixB sep (c :: cs) = true
      · rw [if_pos hcond] at hsplit
        injection hsplit with h1 h2
        subst h1
        have hsep1 : 0 < sep.length := List.length_pos.mpr hcond.1
        have hd : ((c :: cs).drop sep.length).length ≤ f := by
          simp [List.length_drop]; omega
        refine ⟨(c :: cs).drop sep.length, ?_, ?_, ?_⟩
        · have happ := isPrefixB_eq_append hcond.2
          simpa using happ
        · exact (splitGoF_congr sep _ _ le_rfl f hd).trans h2
        · simp [List.length_drop]; omega
      · rw [if_neg hcond] at hsplit
        cases hx : splitGoF sep f cs with
        | nil => exact absurd hx (splitGoF_ne_nil sep f cs)
        | cons t1 ts1 =>
          rw [hx] at hsplit
          injection hsplit with h1 h2
          subst h1
          subst h2
          obtain ⟨r, hr1, hr2, hr3⟩ := ih cs hcs t1 ts1 hx hne
          refine ⟨r, ?_, hr2, ?_⟩
          · rw [hr1]; simp
          · simp; omega

theorem pySplit_join_drop (sep : List Char) (hsep : sep ≠ []) :
    ∀ c : Nat, ∀ s : List Char, (pySplit sep s).drop c ≠ [] →
      pySplit sep (joinSep sep ((pySplit sep s).drop c)) = (pySplit sep s).drop c := by
  intro c
  induction c with
  | zero =>
    intro s _
    simp only [List.drop_zero]
    rw [joinSep_pySplit]
  | succ c ih =>
    intro s hne
    cases hx : pySplit sep s with
    | nil => exact absurd hx (pySplit_ne_nil sep s)
    | cons t rest =>
      rw [hx] at hne
      simp only [List.drop_succ_cons] at hne ⊢
      have hrne : rest ≠ [] := by
        intro h; subst h; simp at hne
      obtain ⟨r, hr1, hr2, hr3⟩ :=
        splitGoF_decomp sep hsep s.length s le_rfl t rest hx hrne
      rw [← hr2]
      exact ih r (by rw [hr2]; exact hne)

theorem strip_length_le (s : List Char) : (strip s).length ≤ s.length := by
  unfold strip
  rw [List.length_reverse]
  calc ((s.dropWhile isSpace).reverse.dropWhile isSpace).length
      ≤ (s.dropWhile isSpace).reverse.length := (List.dropWhile_sublist isSpace).length_le
    _ = (s.dropWhile isSpace).length := List.length_reverse _
    _ ≤ s.length := (List.dropWhile_sublist isSpace).length_le

theorem pySplit_cons_not_prefix (sep : List Char) (c : Char) (v : List Char)
    (h : ¬(sep ≠ [] ∧ isPrefixB sep (c :: v) = true)) :
    ∃ t ts, pySplit sep v = t :: ts ∧ pySplit sep (c :: v) = (c :: t) :: ts := by
  cases hx : pySplit sep v with
  | nil => exact absurd hx (pySplit_ne_nil sep v)
  | cons t ts =>
    refine ⟨t, ts, rfl, ?_⟩
    show splitGoF sep (v.length + 1) (c :: v) = (c :: t) :: ts
    rw [splitGoF, if_neg h, show splitGoF sep v.length v = t :: ts from hx]

theorem pySplit_cons_prefix (sep : List Char) (c : Char) (v : List Char)
    (hsep : sep ≠ []) (h : isPrefixB sep (c :: v) = true) :
    pySplit sep (c :: v) = [] :: pySplit sep ((c :: v).drop sep.length) := by
  have hsep1 : 0 < sep.length := List.length_pos.mpr hsep
  show splitGoF sep (v.length + 1) (c :: v) = _
  rw [splitGoF, if_pos ⟨hsep, h⟩]
  congr 1
  exact splitGoF_congr sep v.length _ (by simp [List.length_drop]; omega) _ le_rfl

theorem tokens_bound_tail (sep : List Char) (hws : SepOK sep)
    (M : Nat) (c : Char) (hc : isSpace c = true) (v : List Char)
    (h : ∀ t ∈ pySplit sep (c :: v), t.length ≤ M) :
    ∀ t ∈ pySplit sep v, t.length ≤ M := by
  by_cases hcond : sep ≠ [] ∧ isPrefixB sep (c :: v) = true
  · have hsc : sep = [c] := by
      cases hws with
      | inl h1 =>
        obtain ⟨a, rfl⟩ : ∃ a, sep = [a] := by
          cases sep with
          | nil => simp at h1
          | cons a as =>
            cases as with
            | nil => exact ⟨a, rfl⟩
            | cons b bs => simp at h1
        simp only [isPrefixB, Bool.and_eq_true, decide_eq_true_eq] at hcond
        rw [hcond.2.1]
      | inr h2 =>
        cases sep with
        | nil => exact absurd rfl hcond.1
        | cons d ds =>
          simp only [isPrefixB, Bool.and_eq_true, decide_eq_true_eq] at hcond
          have hd := h2 d (by simp)
          rw [hcond.2.1, hc] at hd
          exact absurd hd (by simp)
    subst hsc
    have hps := pySplit_cons_prefix [c] c v (by simp) (by simp [isPrefixB])
    intro t ht
    apply h t
    rw [hps]
    exact List.mem_cons_of_mem _ (by simpa using ht)
  · obtain ⟨t1, ts1, hv, hcv⟩ := pySplit_cons_not_prefix sep c v hcond
    intro t ht
    rw [hv] at ht
    rcases List.mem_cons.mp ht with heq | hmem
    · subst heq
      have := h (c :: t) (by rw [hcv]; simp)
      simp at this ⊢
      omega
    · exact h t (by rw [hcv]; exact List.mem_cons_of_mem _ hmem)

theorem tokens_bound_dropWhile (sep : List Char) (hws : SepOK sep) (M : Nat) :
    ∀ u, (∀ t ∈ pySplit sep u, t.length ≤ M) →
      ∀ t ∈ pySplit sep (u.dropWhile isSpace), t.length ≤ M := by
  intro u
  induction u with
  | nil => intro h; simpa using h
  | cons c u1 ih =>
    intro h
    by_cases hc : isSpace c
    · rw [List.dropWhile_cons_of_pos hc]
      exact ih (tokens_bound_tail sep hws M c hc u1 h)
    · rw [List.dropWhile_cons_of_neg hc]
      exact h

theorem appendLast_cons_of_ne_nil (c : Char) (x : List Char) {l : List (List Char)}
    (h : l ≠ []) : appendLast c (x :: l) = x :: appendLast c l := by
  cases l with
  | nil => exact absurd rfl h
  | cons y ys => rfl

theorem mem_appendLast_bound {c : Char} {M : Nat} :
    ∀ l : List (List Char), (∀ t ∈ appendLast c l, t.length ≤ M) →
      ∀ t ∈ l, t.length ≤ M := by
  intro l
  induction l with
  | nil => intro _ t ht; simp at ht
  | cons x xs ih =>
    intro h t ht
    cases xs with
    | nil =>
      have hx : t = x := by simpa using ht
      subst hx
      have := h (t ++ [c]) (by simp [appendLast])
      simp at this ⊢
      omega
    | cons y ys =>
      rw [appendLast_cons_of_ne_nil c x (by simp)] at h
      rcases List.mem_cons.mp ht with rfl | hmem
      · exact h t (by simp)
      · exact ih (fun u hu => h u (List.mem_cons_of_mem _ hu)) t hmem

theorem splitGoF_append_not_mem (sep : List Char) (hsep : sep ≠ []) (c : Char)
    (hc : c ∉ sep) :
    ∀ f w, w.length < f → splitGoF sep f (w ++ [c]) = appendLast c (splitGoF sep f w) := by
  intro f
  induction f with
  | zero => intro w h; omega
  | succ f ih =>
    intro w hw
    cases w with
    | nil =>
      have hcond : ¬(sep ≠ [] ∧ isPrefixB sep (c :: ([] : List Char)) = true) := by
        rintro ⟨h1, h2⟩
        have hlen : 0 < sep.length := List.length_pos.mpr h1
        have heq : sep = [c] := isPrefixB_eq h2 (by simpa using hlen)
        exact hc (by rw [heq]; simp)
      show splitGoF sep (f + 1) [c] = appendLast c (splitGoF sep (f + 1) [])
      rw [splitGoF_nil, splitGoF, if_neg hcond, splitGoF_nil]
      rfl
    | cons d w1 =>
      have hw1 : w1.length < f := by simp at hw; omega
      by_cases hcond : sep ≠ [] ∧ isPrefixB sep (d :: w1) = true
      · have hlen : sep.length ≤ (d :: w1).length := isPrefixB_length_le hcond.2
        have hsep1 : 0 < sep.length := List.length_pos.mpr hsep
        show splitGoF sep (f + 1) (d :: (w1 ++ [c]))
          = appendLast c (splitGoF sep (f + 1) (d :: w1))
        rw [splitGoF, if_pos ⟨hsep, isPrefixB_append_right [c] hcond.2⟩]
        have hdrop : (d :: (w1 ++ [c])).drop sep.length
            = ((d :: w1).drop sep.length) ++ [c] := by
          rw [← List.cons_append, List.drop_append_of_le_length hlen]
        rw [hdrop, ih _ (by simp [List.length_drop]; omega)]
        rw [splitGoF, if_pos hcond,
          appendLast_cons_of_ne_nil c [] (splitGoF_ne_nil sep f _)]
      · have hcondA : ¬(sep ≠ [] ∧ isPrefixB sep (d :: (w1 ++ [c])) = true) := by
          rintro ⟨h1, h2⟩
          apply hcond
          refine ⟨hsep, ?_⟩
          by_cases hlen : sep.length ≤ (d :: w1).length
          · exact isPrefixB_of_append h2 hlen
          · have hle2 : ((d :: w1) ++ [c]).length ≤ sep.length := by simp at hlen ⊢; omega
            have heq := isPrefixB_eq h2 hle2
            have : c ∈ sep := by rw [heq]; simp
            exact absurd this hc
        show splitGoF sep (f + 1) (d :: (w1 ++ [c]))
          = appendLast c (splitGoF sep (f + 1) (d :: w1))
        cases hx : splitGoF sep f w1 with
        | nil => exact absurd hx (splitGoF_ne_nil sep f w1)
        | cons t1 ts1 =>
          have hR : splitGoF sep (f + 1) (d :: w1) = (d :: t1) :: ts1 := by
            rw [splitGoF, if_neg hcond, hx]
          cases ts1 with
          | nil =>
            have hL : splitGoF sep (f + 1) (d :: (w1 ++ [c])) = [d :: (t1 ++ [c])] := by
              rw [splitGoF, if_neg hcondA, ih w1 hw1, hx]
              rfl
            rw [hL, hR]
            rfl
          | cons u us =>
            have hL : splitGoF sep (f + 1) (d :: (w1 ++ [c]))
                = (d :: t1) :: appendLast c (u :: us) := by
              rw [splitGoF, if_neg hcondA, ih w1 hw1, hx]
              rfl
            rw [hL, hR]
            rfl

theorem splitGoF_append_sep_char (a : Char) :
    ∀ f w, w.length < f → splitGoF [a] f (w ++ [a]) = splitGoF [a] f w ++ [[]] := by
  intro f
  induction f with
  | zero => intro w h; omega
  | succ f ih =>
    intro w hw
    cases w with
    | nil =>
      show splitGoF [a] (f + 1) [a] = splitGoF [a] (f + 1) [] ++ [[]]
      rw [splitGoF_nil, splitGoF, if_pos ⟨by simp, by simp [isPrefixB]⟩]
      simp [splitGoF_nil]
    | cons d w1 =>
      have hw1 : w1.length < f := by simp at hw; omega
      have hcond_iff : ∀ X : List Char,
          (([a] : List Char) ≠ [] ∧ isPrefixB [a] (d :: X) = true) ↔ a = d := by
        intro X
        simp [isPrefixB]
      show splitGoF [a] (f + 1) (d :: (w1 ++ [a])) = splitGoF [a] (f + 1) (d :: w1) ++ [[]]
      by_cases had : a = d
      · rw [splitGoF, if_pos ((hcond_iff _).mpr had)]
        rw [show (d :: (w1 ++ [a])).drop ([a] : List Char).length = w1 ++ [a] from rfl]
        rw [ih w1 hw1]
        rw [splitGoF, if_pos ((hcond_iff _).mpr had)]
        rw [show (d :: w1).drop ([a] : List Char).length = w1 from rfl]
        rfl
      · have h1 := fun hh => had ((hcond_iff (w1 ++ [a])).mp hh)
        have h2 := fun hh => had ((hcond_iff w1).mp hh)
        cases hx : splitGoF [a] f w1 with
        | nil => exact absurd hx (splitGoF_ne_nil [a] f w1)
        | cons t1 ts1 =>
          have hR : splitGoF [a] (f + 1) (d :: w1) = (d :: t1) :: ts1 := by
            rw [splitGoF, if_neg h2, hx]
          have hL : splitGoF [a] (f + 1) (d :: (w1 ++ [a])) = (d :: t1) :: (ts1 ++ [[]]) := by
            rw [splitGoF, if_neg h1, ih w1 hw1, hx]
            rfl
          rw [hL, hR]
          rfl

theorem pySplit_append_not_mem (sep : List Char) (hsep : sep ≠ []) (c : Char)
    (hc : c ∉ sep) (w : List Char) :
    pySplit sep (w ++ [c]) = appendLast c (pySplit sep w) := by
  show splitGoF sep (w ++ [c]).length (w ++ [c]) = appendLast c (splitGoF sep w.length w)
  rw [splitGoF_congr sep (w ++ [c]).length (w ++ [c]) le_rfl (w.length + 1) (by simp)]
  rw [splitGoF_append_not_mem sep hsep c hc (w.length + 1) w (by omega)]
  rw [splitGoF_congr sep w.length w le_rfl (w.length + 1) (by omega)]

theorem pySplit_append_sep_char (a : Char) (w : List Char) :
    pySplit [a] (w ++ [a]) = pySplit [a] w ++ [[]] := by
  show splitGoF [a] (w ++ [a]).length (w ++ [a]) = splitGoF [a] w.length w ++ [[]]
  rw [splitGoF_congr [a] (w ++ [a]).length (w ++ [a]) le_rfl (w.length + 1) (by simp)]
  rw [splitGoF_append_sep_char a (w.length + 1) w (by omega)]
  rw [splitGoF_congr [a] w.length w le_rfl (w.length + 1) (by omega)]

theorem tokens_bound_snoc (sep : List Char) (hsep : sep ≠ []) (hws : SepOK sep)
    (M : Nat) (c : Char) (hc : isSpace c = true) (w : List Char)
    (h : ∀ t ∈ pySplit sep (w ++ [c]), t.length ≤ M) :
    ∀ t ∈ pySplit sep w, t.length ≤ M := by
  rcases hws with h1 | h2
  · obtain ⟨a, rfl⟩ : ∃ a, sep = [a] := by
      cases sep with
      | nil => simp at h1
      | cons a as =>
        cases as with
        | nil => exact ⟨a, rfl⟩
        | cons b bs => simp at h1
    by_cases hca : c = a
    · subst hca
      rw [pySplit_append_sep_char] at h
      intro t ht
      exact h t (List.mem_append_left _ ht)
    · rw [pySplit_append_not_mem [a] (by simp) c (by simp [hca])] at h
      exact mem_appendLast_bound _ h
  · have hcm : c ∉ sep := by
      intro hm
      have hx := h2 c hm
      rw [hc] at hx
      exact absurd hx (by simp)
    rw [pySplit_append_not_mem sep hsep c hcm] at h
    exact mem_appendLast_bound _ h

theorem tokens_bound_dropWhile_rev (sep : List Char) (hsep : sep ≠ []) (hws : SepOK sep)
    (M : Nat) :
    ∀ r : List Char, (∀ t ∈ pySplit sep r.reverse, t.length ≤ M) →
      ∀ t ∈ pySplit sep (r.dropWhile isSpace).reverse, t.length ≤ M := by
  intro r
  induction r with
  | nil => intro h; simpa using h
  | cons c r1 ih =>
    intro h
    by_cases hc : isSpace c
    · rw [List.dropWhile_cons_of_pos hc]
      apply ih
      rw [show (c :: r1).reverse = r1.reverse ++ [c] by simp] at h
      exact tokens_bound_snoc sep hsep hws M c hc r1.reverse h
    · rw [List.dropWhile_cons_of_neg hc]
      exact h

theorem strip_tokens_le (sep : List Char) (hsep : sep ≠ []) (hws : SepOK sep) (M : Nat)
    (u : List Char) (h : ∀ t ∈ pySplit sep u, t.length ≤ M) :
    ∀ t ∈ pySplit sep (strip u), t.length ≤ M := by
  unfold strip
  exact tokens_bound_dropWhile_rev sep hsep hws M (u.dropWhile isSpace).reverse
    (by rw [List.reverse_reverse]; exact tokens_bound_dropWhile sep hws M u h)

theorem joinSep_pair (sep x y : List Char) : joinSep sep [x, y] = x ++ sep ++ y := rfl

theorem cut_text_succ_no_recursion (sep : List Char) (M fuel : Nat) (text : List Char)
    (hsep : sep ≠ [])
    (hle : (joinSep sep ((pySplit sep (strip text)).drop
        (greedyCount sep M (pySplit sep (strip text))))).length ≤ M) :
    cut_text sep M (fuel + 1) text
      = ([joinSep sep ((pySplit sep (strip text)).take
            (greedyCount sep M (pySplit sep (strip text)))),
          joinSep sep ((pySplit sep (strip text)).drop
            (greedyCount sep M (pySplit sep (strip text))))], none) := by
  simp only [cut_text]
  rw [if_neg (show ¬sep = [] from hsep),
    if_neg (show ¬M < (joinSep sep ((pySplit sep (strip text)).drop
      (greedyCount sep M (pySplit sep (strip text))))).length from by omega)]

theorem cut_text_succ_recursion (sep : List Char) (M fuel : Nat) (text : List Char)
    (hsep : sep ≠ [])
    (hgt : M < (joinSep sep ((pySplit sep (strip text)).drop
        (greedyCount sep M (pySplit sep (strip text))))).length) :
    cut_text sep M (fuel + 1) text
      = (joinSep sep ((pySplit sep (strip text)).take
            (greedyCount sep M (pySplit sep (strip text))))
          :: (cut_text sep M fuel (joinSep sep ((pySplit sep (strip text)).drop
            (greedyCount sep M (pySplit sep (strip text)))))).1,
         (cut_text sep M fuel (joinSep sep ((pySplit sep (strip text)).drop
            (greedyCount sep M (pySplit sep (strip text)))))).2) := by
  simp only [cut_text]
  rw [if_neg (show ¬sep = [] from hsep), if_pos hgt]

/-- The recursion of `cut_text` on the separator `" x"` and remainder
`"xyz"` never shrinks the remainder: the single token exceeds `M = 2`, the
greedy count is 0, the emitted chunk is empty and the recursive call
receives the same text, so every fuel bound is exhausted (Python:
`RecursionError`). -/
theorem cut_text_stuck_on_oversized_token :
    ∀ f, (cut_text " x".toList 2 f "xyz".toList).2 = some PyErr.recursionError := by
  intro f
  induction f with
  | zero => rfl
  | succ f ih =>
    rw [cut_text_succ_recursion " x".toList 2 f "xyz".toList (by decide) (by decide)]
    rw [show joinSep " x".toList ((pySplit " x".toList (strip "xyz".toList)).drop
      (greedyCount " x".toList 2 (pySplit " x".toList (strip "xyz".toList))))
      = "xyz".toList from by decide]
    exact ih

/-! ## Claim theorems -/

/-- C1 (amended): for a valid category cursor and pairwise-distinct
configured symbols, `pagination` implements the transition table of the
code: first-category, when `categoryIndex > 0`, *decrements*
`categoryIndex` by one (not: jumps to 0) and resets `pageIndex` to 0;
previous-page, when `pageIndex > 0`, decrements `pageIndex`; stop always
clears the active flag; next-page, when `pageIndex < lastPage`, increments
`pageIndex`; last-category, when `categoryIndex < categoryCount - 1`,
*increments* `categoryIndex` by one (not: jumps to the last category) and
resets `pageIndex` to 0. -/
theorem pagination_transition_table {α ε : Type} [DecidableEq ε] (em : Emojis ε)
    (hd : em.distinct) (s : PagState α) (hcat : s.category < s.pages.length) :
    (0 < s.category →
      pagination em s em.e0 = .ok { s with current := 0, category := s.category - 1 }) ∧
    (0 < s.current →
      pagination em s em.e1 = .ok { s with current := s.current - 1 }) ∧
    (pagination em s em.e2 = .ok { s with is_active := false }) ∧
    (s.current < (s.pages.getD s.category []).length - 1 →
      pagination em s em.e3 = .ok { s with current := s.current + 1 }) ∧
    (s.category < s.pages.length - 1 →
      pagination em s em.e4 = .ok { s with current := 0, category := s.category + 1 }) := by
  obtain ⟨d01, d02, d03, d04, d12, d13, d14, d23, d24, d34⟩ := hd
  have hg : s.pages[s.category]? = some s.pages[s.category] := List.getElem?_eq_getElem hcat
  rw [pagination_unfold em s _ em.e0 hg, pagination_unfold em s _ em.e1 hg,
    pagination_unfold em s _ em.e2 hg, pagination_unfold em s _ em.e3 hg,
    pagination_unfold em s _ em.e4 hg, getD_eq_getElem _ _ hcat]
  refine ⟨fun h => ?_, fun h => ?_, ?_, fun h => ?_, fun h => ?_⟩
  · rw [if_pos ⟨rfl, h⟩]
  · rw [if_neg fun hc => d01 hc.1.symm, if_pos ⟨rfl, h⟩]
  · rw [if_neg fun hc => d02 hc.1.symm, if_neg fun hc => d12 hc.1.symm, if_pos rfl]
  · rw [if_neg fun hc => d03 hc.1.symm, if_neg fun hc => d13 hc.1.symm,
      if_neg fun hc => d23 hc.symm, if_pos ⟨rfl, h⟩]
  · rw [if_neg fun hc => d04 hc.1.symm, if_neg fun hc => d14 hc.1.symm,
      if_neg fun hc => d24 hc.symm, if_neg fun hc => d34 (And.left hc).symm,
      if_pos ⟨rfl, h⟩]

/-- C1 witness: the amended table applied to the standard emoji set at a
concrete state with three categories, cursor (2, 0). -/
theorem pagination_transition_table_witness :
    0 < (2 : Nat) ∧
    pagination STANDART_EMOJIS ⟨[["a"], ["b"], ["c"]], 2, 0, true⟩ "⏪"
      = .ok ⟨[["a"], ["b"], ["c"]], 1, 0, true⟩ :=
  ⟨by decide,
    (pagination_transition_table STANDART_EMOJIS (by decide)
      ⟨[["a"], ["b"], ["c"]], 2, 0, true⟩ (by decide)).1 (by decide)⟩

/-- C1 counterexample: with three categories and cursor (2, 0), the
first-category action yields category 1, not 0 as the claim states; and
from (0, 0) the last-category action yields category 1, not the last
category 2. -/
theorem pagination_transition_counterexample :
    pagination STANDART_EMOJIS ⟨[["a"], ["b"], ["c"]], 2, 0, true⟩ "⏪"
      = .ok ⟨[["a"], ["b"], ["c"]], 1, 0, true⟩ ∧
    pagination STANDART_EMOJIS ⟨[["a"], ["b"], ["c"]], 0, 0, true⟩ "⏩"
      = .ok ⟨[["a"], ["b"], ["c"]], 1, 0, true⟩ ∧
    (PagState.mk [["a"], ["b"], ["c"]] 1 0 true).category ≠ 0 ∧
    (PagState.mk [["a"], ["b"], ["c"]] 1 0 true).category ≠ 2 := by decide

/-- C6: every state reachable by a sequence of pagination actions from
the initial cursor (0, 0), over at least one registered category each
owning at least one page, has `categoryIndex < categoryCount` and
`pageIndex < pageCount(categoryIndex)` (indices are `Nat`, hence `≥ 0`). -/
theorem reachable_cursor_valid {α ε : Type} [DecidableEq ε] (em : Emojis ε)
    (pages : List (List α)) (h1 : 0 < pages.length) (h2 : ∀ c ∈ pages, 0 < c.length)
    (es : List ε) (s' : PagState α)
    (hr : run em ⟨pages, 0, 0, true⟩ es = .ok s') :
    s'.category < s'.pages.length ∧
    s'.current < (s'.pages.getD s'.category []).length := by
  have hinv0 : CursorInv (⟨pages, 0, 0, true⟩ : PagState α) :=
    ⟨h2, h1, h2 _ (getD_mem_of_lt pages 0 h1)⟩
  have := run_preserves em es _ s' hinv0 hr
  exact ⟨this.2.1, this.2.2⟩

/-- C6 witness: a concrete two-category run ending at cursor (1, 1). -/
theorem reachable_cursor_valid_witness :
    (1 : Nat) < ([["a"], ["b", "c"]] : List (List String)).length ∧
    (1 : Nat) < (([["a"], ["b", "c"]] : List (List String)).getD 1 []).length :=
  reachable_cursor_valid STANDART_EMOJIS [["a"], ["b", "c"]] (by decide) (by decide)
    ["⏩", "▶"] ⟨[["a"], ["b", "c"]], 1, 1, true⟩ (by decide)

/-- C7 (amended): provided the five configured symbols are pairwise
distinct and the category cursor is valid, every action whose
precondition is false is a no-op: the state (category, page, active flag)
is returned unchanged and no error is raised. -/
theorem pagination_noop {α ε : Type} [DecidableEq ε] (em : Emojis ε)
    (hd : em.distinct) (s : PagState α) (hcat : s.category < s.pages.length) :
    (s.category = 0 → pagination em s em.e0 = .ok s) ∧
    (s.current = 0 → pagination em s em.e1 = .ok s) ∧
    ((s.pages.getD s.category []).length - 1 ≤ s.current → pagination em s em.e3 = .ok s) ∧
    (s.pages.length - 1 ≤ s.category → pagination em s em.e4 = .ok s) := by
  obtain ⟨d01, d02, d03, d04, d12, d13, d14, d23, d24, d34⟩ := hd
  have hg : s.pages[s.category]? = some s.pages[s.category] := List.getElem?_eq_getElem hcat
  rw [pagination_unfold em s _ em.e0 hg, pagination_unfold em s _ em.e1 hg,
    pagination_unfold em s _ em.e3 hg, pagination_unfold em s _ em.e4 hg,
    getD_eq_getElem _ _ hcat]
  refine ⟨fun h => ?_, fun h => ?_, fun h => ?_, fun h => ?_⟩
  · rw [if_neg fun hc => absurd hc.2 (by omega), if_neg fun hc => d01 hc.1,
      if_neg fun hc => d02 hc, if_neg fun hc => d03 hc.1,
      if_neg fun hc => d04 hc.1]
  · rw [if_neg fun hc => d01 hc.1.symm, if_neg fun hc => absurd hc.2 (by omega),
      if_neg fun hc => d12 hc, if_neg fun hc => d13 hc.1,
      if_neg fun hc => d14 hc.1]
  · rw [if_neg fun hc => d03 hc.1.symm, if_neg fun hc => d13 hc.1.symm,
      if_neg fun hc => d23 hc.symm, if_neg fun hc => absurd hc.2 (by omega),
      if_neg fun hc => d34 hc.1]
  · rw [if_neg fun hc => d04 hc.1.symm, if_neg fun hc => d14 hc.1.symm,
      if_neg fun hc => d24 hc.symm, if_neg fun hc => d34 hc.1.symm,
      if_neg fun hc => absurd hc.2 (by omega)]

/-- C7 witness: the standard (distinct) emoji set, one category of one
page, cursor (0, 0): the first-category action is a no-op. -/
theorem pagination_noop_witness :
    pagination STANDART_EMOJIS ⟨[["a"]], 0, 0, true⟩ "⏪" = .ok ⟨[["a"]], 0, 0, true⟩ :=
  (pagination_noop STANDART_EMOJIS (by decide) ⟨[["a"]], 0, 0, true⟩ (by decide)).1 rfl

/-- C7 counterexample: with a configured tuple that repeats one symbol in
the first-category and next-page slots, pressing it at `categoryIndex = 0`
(first-category precondition false) is *not* a no-op: the next-page
branch fires and increments the page cursor. -/
theorem pagination_noop_counterexample :
    pagination (Emojis.mk "x" "b" "c" "x" "e") ⟨[["p", "q"]], 0, 0, true⟩ "x"
      = .ok ⟨[["p", "q"]], 0, 1, true⟩ ∧
    pagination (Emojis.mk "x" "b" "c" "x" "e") ⟨[["p", "q"]], 0, 0, true⟩ "x"
      ≠ .ok ⟨[["p", "q"]], 0, 0, true⟩ := by decide

/-- C10: with categories A = [p0, p1] then B = [q0] and cursor (0, 0):
next-page yields (0, 1); next-page again is a no-op; last-category yields
(1, 0); first-category yields (0, 0). -/
theorem scenario_two_categories :
    pagination STANDART_EMOJIS ⟨[["p0", "p1"], ["q0"]], 0, 0, true⟩ "▶"
      = .ok ⟨[["p0", "p1"], ["q0"]], 0, 1, true⟩ ∧
    pagination STANDART_EMOJIS ⟨[["p0", "p1"], ["q0"]], 0, 1, true⟩ "▶"
      = .ok ⟨[["p0", "p1"], ["q0"]], 0, 1, true⟩ ∧
    pagination STANDART_EMOJIS ⟨[["p0", "p1"], ["q0"]], 0, 1, true⟩ "⏩"
      = .ok ⟨[["p0", "p1"], ["q0"]], 1, 0, true⟩ ∧
    pagination STANDART_EMOJIS ⟨[["p0", "p1"], ["q0"]], 1, 0, true⟩ "⏪"
      = .ok ⟨[["p0", "p1"], ["q0"]], 0, 0, true⟩ := by decide

/-- C3: `split_fields` with `max_count = 2` on the three fields
`[0, 1, 2]` produces a single page holding only the first group `(0, 1)`
— the third field is dropped, not placed in a second group as the
contract requires — and on five fields it recurses on the unchanged full
list until the recursion limit (`RecursionError`). -/
theorem split_fields_failing_input :
    split_fields 2 50 [(PKey.cat none none 0, [])] (PKey.cat none none 0) [0, 1, 2]
      = .ok [(PKey.cat none none 0, [[[0, 1]]])] ∧
    ([0, 1] : List Nat) ≠ [0, 1, 2] ∧
    split_fields 2 50 [(PKey.cat none none 0, [])] (PKey.cat none none 0) [0, 1, 2, 3, 4]
      = .error .recursionError := ⟨by decide, by decide, by decide⟩

/-- C4: `FieldPaginator.add_category` always raises `KeyError`: it
registers the page list under the 3-tuple `(title, footer, ordinal)` but
calls `split_fields` with the bare title, which is never a registered key
(over any state whose keys all have the registered 3-tuple form). -/
theorem add_category_keyError {α : Type} (maxCount fuel : Nat) (pages : FDict α)
    (title footer : Option String) (fields : List α)
    (hkeys : ∀ p ∈ pages, (p.1).isCat = true) :
    add_category maxCount (fuel + 1) pages title footer fields = .error .keyError := by
  unfold add_category split_fields
  have hget : dictGet (dictSet pages (PKey.cat title footer pages.length) [])
      (PKey.bare title) = none := by
    rw [dictGet_set_ne _ _ _ _ (by intro h; cases h)]
    exact dictGet_none_of_forall _ _ fun p hp => by
      have := hkeys p hp
      intro hc
      rw [hc] at this
      exact absurd this (by simp [PKey.isCat])
  rw [hget]

/-- C4 witness: a concrete `add_category` call on a fresh paginator. -/
theorem add_category_keyError_witness :
    add_category 25 100 ([] : FDict Nat) (some "T") none [0, 1] = .error .keyError :=
  add_category_keyError 25 99 [] (some "T") none [0, 1] (by simp)

/-- C5 (amended): `add_embed` performs no validation.  Whenever the
description is absent — regardless of the title — `cut_text` raises
`AttributeError` on the `Embed.Empty` sentinel, and the empty category
remains registered (registration is not aborted). -/
theorem add_embed_no_validation (sep : List Char) (M fuel : Nat) (pages : TDict)
    (e : PyEmbed) (hdesc : e.description = none) :
    (add_embed sep M fuel pages e).2 = some .attributeError ∧
    dictGet (add_embed sep M fuel pages e).1 (e.title, e.footerText, pages.length)
      = some [] := by
  unfold add_embed
  rw [hdesc]
  exact ⟨rfl, dictGet_set_self pages _ []⟩

/-- C5 witness: the empty embed on a fresh paginator. -/
theorem add_embed_no_validation_witness :
    (add_embed ['\n'] 2000 10 [] ⟨none, none, none⟩).2 = some .attributeError ∧
    dictGet (add_embed ['\n'] 2000 10 [] ⟨none, none, none⟩).1 (none, none, 0) = some [] :=
  add_embed_no_validation ['\n'] 2000 10 [] ⟨none, none, none⟩ rfl

/-- C5 counterexample: registering the embed with neither title nor
description raises `AttributeError` (not a registration-time validation
error) and the category *is* added: the resulting page dict contains the
key `(none, none, 0)` — the registration was not aborted. -/
theorem add_embed_counterexample :
    (add_embed ['\n'] 2000 10 [] ⟨none, none, none⟩)
      = ([((none, none, 0), [])], some .attributeError) ∧
    ([((none, none, 0), [])] : TDict) ≠ [] := ⟨by decide, by decide⟩

/-- C9 (amended): calling `stop()` on an already-stopped session raises
no error (a `NotFound`/`Forbidden` failure of the cleanup call is
swallowed) and leaves the state unchanged, but it *repeats* the cleanup
platform call (delete or clear-reactions) whenever a message is still
bound — it is idempotent in state, not in platform effects. -/
theorem stop_idempotent_swallows (s : StopState) (o : COutcome)
    (h : s.is_active = false) :
    (stop s o).2.2 = none ∧ (stop s o).1 = s ∧
    (stop s o).2.1 =
      (if s.hasMessage then
        [if s.delete_message then PCall.deleteMsg else PCall.clearReactions]
      else []) := by
  obtain ⟨a, hm, dm⟩ := s
  cases h
  cases o <;> cases hm <;> cases dm <;> exact ⟨rfl, rfl, rfl⟩

/-- C9 witness: second `stop()` on a stopped session with a bound message
and `delete_message = False`. -/
theorem stop_idempotent_swallows_witness :
    (stop ⟨false, true, false⟩ .notFound).2.2 = none ∧
    (stop ⟨false, true, false⟩ .notFound).1 = ⟨false, true, false⟩ ∧
    (stop ⟨false, true, false⟩ .notFound).2.1 =
      (if true then [if false then PCall.deleteMsg else PCall.clearReactions] else []) :=
  stop_idempotent_swallows ⟨false, true, false⟩ .notFound rfl

/-- C9 counterexample: stopping an already-stopped session with a bound
message performs a further platform call — it clears reactions again —
contradicting "performs no further platform calls". -/
theorem stop_counterexample :
    stop ⟨false, true, false⟩ .success
      = (⟨false, true, false⟩, [PCall.clearReactions], none) ∧
    ([PCall.clearReactions] : List PCall) ≠ [] := by decide

/-- C2 (amended): the splitter round-trip holds in the greedy two-chunk
case: for a nonempty separator, when the stripped input is longer than
`max_size` and the remainder after the first greedy chunk fits within
`max_size`, the produced pages rejoined with the separator equal
`s.strip()` exactly.  (In general the round-trip fails: an input that fits
entirely gets a trailing empty page, and recursive calls re-strip the
remainder, losing whitespace.) -/
theorem cut_text_roundtrip (sep : List Char) (M : Nat) (s : List Char)
    (hsep : sep ≠ [])
    (hbig : M < (strip s).length)
    (hleft : (joinSep sep ((pySplit sep (strip s)).drop
        (greedyCount sep M (pySplit sep (strip s))))).length ≤ M) :
    (cut_text sep M 1 s).2 = none ∧
    joinSep sep (cut_text sep M 1 s).1 = strip s := by
  have hjs : joinSep sep (pySplit sep (strip s)) = strip s := joinSep_pySplit sep (strip s)
  have hchunk := greedyCount_join_le sep M (pySplit sep (strip s))
  have hgle := greedyCount_le sep M (pySplit sep (strip s))
  have hgpos : 1 ≤ greedyCount sep M (pySplit sep (strip s)) := by
    by_contra h0
    have hg0 : greedyCount sep M (pySplit sep (strip s)) = 0 := by omega
    rw [hg0, List.drop_zero, hjs] at hleft
    omega
  have hglt : greedyCount sep M (pySplit sep (strip s)) < (pySplit sep (strip s)).length := by
    by_contra hge
    have hgeq : greedyCount sep M (pySplit sep (strip s))
        = (pySplit sep (strip s)).length := by omega
    rw [hgeq, List.take_length, hjs] at hchunk
    omega
  have hsplitj := joinSep_take_drop sep (greedyCount sep M (pySplit sep (strip s)))
    (pySplit sep (strip s)) hgpos hglt
  have h := cut_text_succ_no_recursion sep M 0 s hsep hleft
  refine ⟨by rw [h], ?_⟩
  calc joinSep sep (cut_text sep M 1 s).1
      = joinSep sep [joinSep sep ((pySplit sep (strip s)).take
            (greedyCount sep M (pySplit sep (strip s)))),
          joinSep sep ((pySplit sep (strip s)).drop
            (greedyCount sep M (pySplit sep (strip s))))] := by rw [h]
    _ = joinSep sep ((pySplit sep (strip s)).take
            (greedyCount sep M (pySplit sep (strip s)))) ++ sep ++
        joinSep sep ((pySplit sep (strip s)).drop
            (greedyCount sep M (pySplit sep (strip s)))) := joinSep_pair sep _ _
    _ = joinSep sep (pySplit sep (strip s)) := hsplitj.symm
    _ = strip s := hjs

/-- C2 witness: `"ab\ncd"` with separator `"\n"` and `max_size = 2`
splits into `["ab", "cd"]`, which rejoins to the stripped input. -/
theorem cut_text_roundtrip_witness :
    (cut_text ['\n'] 2 1 "ab\ncd".toList).2 = none ∧
    joinSep ['\n'] (cut_text ['\n'] 2 1 "ab\ncd".toList).1 = strip "ab\ncd".toList :=
  cut_text_roundtrip ['\n'] 2 "ab\ncd".toList (by decide) (by decide) (by decide)

/-- C2 counterexample: `"a"` with separator `"\n"` and `max_size = 3`
terminates with pages `["a", ""]` — the code appends the empty leftover as
an extra page — whose rejoin is `"a\n"`, not `"a".strip() = "a"`. -/
theorem cut_text_roundtrip_counterexample :
    cut_text ['\n'] 3 2 ['a'] = ([['a'], []], none) ∧
    joinSep ['\n'] [['a'], []] ≠ strip ['a'] := ⟨by decide, by decide⟩

/-- C8 (amended): for a nonempty separator that is a single character or
contains no whitespace, if every separator-delimited token of the stripped
input has length at most `max_size`, then `cut_text` terminates within
`length + 1` recursive calls (the remainder strictly shrinks), producing
its page list with no `RecursionError`. -/
theorem cut_text_terminates (sep : List Char) (M : Nat) (s : List Char)
    (hsep : sep ≠ []) (hws : SepOK sep)
    (htok : ∀ t ∈ pySplit sep (strip s), t.length ≤ M) :
    (cut_text sep M (s.length + 1) s).2 = none := by
  suffices haux : ∀ fuel t, t.length < fuel → (∀ u ∈ pySplit sep (strip t), u.length ≤ M) →
      (cut_text sep M fuel t).2 = none by
    exact haux (s.length + 1) s (by omega) htok
  intro fuel
  induction fuel with
  | zero =>
    intro t ht _
    omega
  | succ fuel ih =>
    intro t hlen htok2
    by_cases hrec : M < (joinSep sep ((pySplit sep (strip t)).drop
        (greedyCount sep M (pySplit sep (strip t))))).length
    · obtain ⟨t0, ts1, hts⟩ := List.exists_cons_of_ne_nil (pySplit_ne_nil sep (strip t))
      have ht0 : t0.length ≤ M := htok2 t0 (by rw [hts]; simp)
      have hgpos : 1 ≤ greedyCount sep M (pySplit sep (strip t)) := by
        apply greedyCountGo_pos
        · rw [hts, joinSep_take_one]
          exact ht0
        · rw [hts]
          simp
      have hdropne : (pySplit sep (strip t)).drop
          (greedyCount sep M (pySplit sep (strip t))) ≠ [] := by
        intro h0
        rw [h0] at hrec
        simp [joinSep] at hrec
      have hglt : greedyCount sep M (pySplit sep (strip t))
          < (pySplit sep (strip t)).length := by
        by_contra hge
        exact hdropne (List.drop_eq_nil_of_le (by omega))
      have hsplitj := joinSep_take_drop sep (greedyCount sep M (pySplit sep (strip t)))
        (pySplit sep (strip t)) hgpos hglt
      have hjs := joinSep_pySplit sep (strip t)
      have hstriple : (strip t).length ≤ t.length := strip_length_le t
      have hlen2 : (joinSep sep ((pySplit sep (strip t)).drop
          (greedyCount sep M (pySplit sep (strip t))))).length < t.length := by
        have hli := congrArg List.length (hjs.symm.trans hsplitj)
        simp only [List.length_append] at hli
        have hseppos : 0 < sep.length := List.length_pos.mpr hsep
        omega
      have htokl : ∀ u ∈ pySplit sep (strip (joinSep sep ((pySplit sep (strip t)).drop
          (greedyCount sep M (pySplit sep (strip t)))))), u.length ≤ M := by
        apply strip_tokens_le sep hsep hws
        rw [pySplit_join_drop sep hsep _ _ hdropne]
        intro u hu
        exact htok2 u (List.mem_of_mem_drop hu)
      rw [cut_text_succ_recursion sep M fuel t hsep hrec]
      exact ih _ (by omega) htokl
    · rw [cut_text_succ_no_recursion sep M fuel t hsep (by omega)]

/-- C8 witness: the default single-character separator `"\n"` on
`"ab\ncd"` with `max_size = 2` (tokens `"ab"`, `"cd"` of length ≤ 2)
terminates. -/
theorem cut_text_terminates_witness :
    (cut_text ['\n'] 2 ("ab\ncd".toList.length + 1) "ab\ncd".toList).2 = none :=
  cut_text_terminates ['\n'] 2 "ab\ncd".toList (by decide) (by decide) (by decide)

/-- C8 counterexample: with separator `" x"` (two characters, containing
whitespace), input `"a x xyz"` and `max_size = 2`, every separator-
delimited token of the stripped input (`"a"`, `""`, `"yz"`) has length at
most 2, yet the recursion never terminates: stripping the remainder
`" xyz"` destroys the separator occurrence and leaves the oversized token
`"xyz"`, so the remainder stops shrinking and any recursion budget — here
100 levels — is exhausted (Python raises `RecursionError`). -/
theorem cut_text_termination_counterexample :
    ((pySplit " x".toList (strip "a x xyz".toList)).all
      fun t => decide (t.length ≤ 2)) = true ∧
    (cut_text " x".toList 2 100 "a x xyz".toList).2 = some PyErr.recursionError :=
  ⟨by decide, by decide⟩

end Paginator
